import Mathlib

/-!
Verification of the geometric-numerical core of a mesh shape-optimization
program (vertex welding, discrete Laplacians, system matrix, differential
parameterization, normal computation).

The embedding models float tensors as real-valued functions and matrices:
vertex positions are `Fin V → Vec3` with `Vec3 = Fin 3 → ℝ`, faces are
`Fin F → Fin 3 → Fin V` (index-in-range is enforced by the type), and the
sparse `V × V` operators are `Matrix (Fin V) (Fin V) ℝ` given entrywise by
the value the coalesced sparse assembly produces at each index pair.
-/

open scoped Classical

open Matrix

noncomputable section

namespace LargeSteps

/-- A 3D point / row of an `N×3` tensor. -/
abbrev Vec3 := Fin 3 → ℝ

/-- Euclidean norm of a 3-vector (`torch.norm` along a size-3 dimension). -/
def norm3 (x : Vec3) : ℝ := Real.sqrt (x 0 ^ 2 + x 1 ^ 2 + x 2 ^ 2)

/-- Componentwise dot product of two 3-vectors (`torch.sum(d0*d1, 0)`). -/
def dot3 (x y : Vec3) : ℝ := x 0 * y 0 + x 1 * y 1 + x 2 * y 2

/-- Cross product of two 3-vectors (`torch.cross`). -/
def cross3 (a b : Vec3) : Vec3 :=
  ![a 1 * b 2 - a 2 * b 1, a 2 * b 0 - a 0 * b 2, a 0 * b 1 - a 1 * b 0]

/-- Division of a 3-vector by its norm (`c / torch.norm(c, dim=0)`). -/
def normalize3 (x : Vec3) : Vec3 := fun c => x c / norm3 x

/-- Modelled from the spec: `safe_acos` lives in `utils.py`, which is not under
`src/`; per the spec the arccos input is clamped to `[-1, 1]` before the
inverse-cosine call. -/
def safe_acos (x : ℝ) : ℝ := Real.arccos (min (max x (-1)) 1)

/-- The vertex of face `k` at corner `m` (`verts[faces]` gather). -/
def faceVert {V F : ℕ} (verts : Fin V → Vec3) (faces : Fin F → Fin 3 → Fin V)
    (k : Fin F) (m : Fin 3) : Vec3 :=
  verts (faces k m)

/-- The deduplicated set of directed neighbor pairs assembled by
`laplacian_uniform`: for every face the pairs `(f1,f2), (f2,f0), (f0,f1)`
(`ii`/`jj`) together with their reverses, with duplicates removed
(`.unique(dim=1)`). -/
def edgePairs {V F : ℕ} (faces : Fin F → Fin 3 → Fin V) : Finset (Fin V × Fin V) :=
  Finset.univ.biUnion fun k =>
    {(faces k 1, faces k 2), (faces k 2, faces k 0), (faces k 0, faces k 1),
     (faces k 2, faces k 1), (faces k 0, faces k 2), (faces k 1, faces k 0)}

/-- Number of deduplicated directed pairs whose first index is `i`; this is the
multiplicity with which the scatter of `+1` values at `(diag_idx, diag_idx)`
hits the diagonal entry `(i, i)` in `laplacian_uniform`. -/
def vertexDegree {V F : ℕ} (faces : Fin F → Fin 3 → Fin V) (i : Fin V) : ℕ :=
  ((edgePairs faces).filter fun p => p.1 = i).card

/-- The uniform (combinatorial) Laplacian: the coalesced sparse matrix built
from value `-1` at every deduplicated adjacency pair and value `+1` scattered
at `(i, i)` once per adjacency pair whose first index is `i`. -/
def laplacian_uniform {V F : ℕ} (verts : Fin V → Vec3) (faces : Fin F → Fin 3 → Fin V) :
    Matrix (Fin V) (Fin V) ℝ :=
  Matrix.of fun i j =>
    (if (i, j) ∈ edgePairs faces then (-1 : ℝ) else 0) +
      (if i = j then (vertexDegree faces i : ℝ) else 0)

/-- Side length `A` of face `k` (opposite `v0`... the code comment says `A` is
opposite `v1` but the pytorch3d convention used here is `A = ‖v1 - v2‖`,
the side opposite corner 0). -/
def sideA {V F : ℕ} (verts : Fin V → Vec3) (faces : Fin F → Fin 3 → Fin V) (k : Fin F) : ℝ :=
  norm3 (faceVert verts faces k 1 - faceVert verts faces k 2)

/-- Side length `B = ‖v0 - v2‖` of face `k`. -/
def sideB {V F : ℕ} (verts : Fin V → Vec3) (faces : Fin F → Fin 3 → Fin V) (k : Fin F) : ℝ :=
  norm3 (faceVert verts faces k 0 - faceVert verts faces k 2)

/-- Side length `C = ‖v0 - v1‖` of face `k`. -/
def sideC {V F : ℕ} (verts : Fin V → Vec3) (faces : Fin F → Fin 3 → Fin V) (k : Fin F) : ℝ :=
  norm3 (faceVert verts faces k 0 - faceVert verts faces k 1)

/-- The semiperimeter `s = 0.5 * (A + B + C)` of face `k`. -/
def semiPerim {V F : ℕ} (verts : Fin V → Vec3) (faces : Fin F → Fin 3 → Fin V) (k : Fin F) : ℝ :=
  0.5 * (sideA verts faces k + sideB verts faces k + sideC verts faces k)

/-- Triangle area by Heron's formula as computed in `laplacian_cot`:
with `s = 0.5*(A+B+C)`, the product under the square root is clamped to a
minimum of `1e-12` before `sqrt`. -/
def faceArea {V F : ℕ} (verts : Fin V → Vec3) (faces : Fin F → Fin 3 → Fin V) (k : Fin F) : ℝ :=
  Real.sqrt (max (semiPerim verts faces k * (semiPerim verts faces k - sideA verts faces k) *
    (semiPerim verts faces k - sideB verts faces k) *
    (semiPerim verts faces k - sideC verts faces k)) 1e-12)

/-- The stacked cotangent values `cota, cotb, cotc` of face `k` before the
final division by 4: `cot m = (sum of the other two squared sides minus the
squared side `m`) / area`. -/
def cotStack {V F : ℕ} (verts : Fin V → Vec3) (faces : Fin F → Fin 3 → Fin V)
    (k : Fin F) (m : Fin 3) : ℝ :=
  if m = 0 then
    (sideB verts faces k ^ 2 + sideC verts faces k ^ 2 - sideA verts faces k ^ 2) /
      faceArea verts faces k
  else if m = 1 then
    (sideA verts faces k ^ 2 + sideC verts faces k ^ 2 - sideB verts faces k ^ 2) /
      faceArea verts faces k
  else
    (sideA verts faces k ^ 2 + sideB verts faces k ^ 2 - sideC verts faces k ^ 2) /
      faceArea verts faces k

/-- The cotangent values after the in-place `cot /= 4.0`. -/
def cotScaled {V F : ℕ} (verts : Fin V → Vec3) (faces : Fin F → Fin 3 → Fin V)
    (k : Fin F) (m : Fin 3) : ℝ :=
  cotStack verts faces k m / 4

/-- The sparse matrix assembled from the scatter
`L[faces k (m+1), faces k (m+2)] += cot k m` (i.e. `L[v1,v2]=cota`,
`L[v2,v0]=cotb`, `L[v0,v1]=cotc`), duplicates summed. -/
def cotAssembled {V F : ℕ} (verts : Fin V → Vec3) (faces : Fin F → Fin 3 → Fin V) :
    Matrix (Fin V) (Fin V) ℝ :=
  Matrix.of fun i j =>
    ∑ k : Fin F, ∑ m : Fin 3,
      if faces k (m + 1) = i ∧ faces k (m + 2) = j then cotScaled verts faces k m else 0

/-- The symmetrized off-diagonal accumulation `L += L.t()`. -/
def cotSym {V F : ℕ} (verts : Fin V → Vec3) (faces : Fin F → Fin 3 → Fin V) :
    Matrix (Fin V) (Fin V) ℝ :=
  cotAssembled verts faces + (cotAssembled verts faces)ᵀ

/-- The cotangent Laplacian: the diagonal matrix of column sums of the
symmetrized accumulation (`torch.sparse.sum(L, dim=0)`) minus that
accumulation. -/
def laplacian_cot {V F : ℕ} (verts : Fin V → Vec3) (faces : Fin F → Fin 3 → Fin V) :
    Matrix (Fin V) (Fin V) ℝ :=
  Matrix.diagonal (fun i => ∑ m : Fin V, cotSym verts faces m i) - cotSym verts faces

/-- The system matrix `M = I + lambda_ * L`, with `L` selected by the `cotan`
flag (default `False` at the definition site in the source). -/
def compute_matrix {V F : ℕ} (verts : Fin V → Vec3) (faces : Fin F → Fin 3 → Fin V)
    (lambda_ : ℝ) (cotan : Bool) : Matrix (Fin V) (Fin V) ℝ :=
  1 + lambda_ • (if cotan then laplacian_cot verts faces else laplacian_uniform verts faces)

/-- Modelled from the spec: `to_differential` lives in `parameterize.py`, which
is not under `src/`; per the spec it returns `u = M @ v`, a sparse
matrix-vector product applied to the `V×3` position array. -/
def to_differential {V : ℕ} (M : Matrix (Fin V) (Fin V) ℝ) (v : Matrix (Fin V) (Fin 3) ℝ) :
    Matrix (Fin V) (Fin 3) ℝ :=
  M * v

/-- Modelled from the spec: `from_differential` lives in `parameterize.py`,
which is not under `src/`; per the spec it returns `v = solve(M, u)` via the
cached factorization, i.e. the solution of `M x = u`, modelled as `M⁻¹ @ u`. -/
def from_differential {V : ℕ} (M : Matrix (Fin V) (Fin V) ℝ) (u : Matrix (Fin V) (Fin 3) ℝ) :
    Matrix (Fin V) (Fin 3) ℝ :=
  M⁻¹ * u

/-- The unnormalized face normal `cross(v1 - v0, v2 - v0)` of face `k`. -/
def faceCross {V F : ℕ} (verts : Fin V → Vec3) (faces : Fin F → Fin 3 → Fin V) (k : Fin F) :
    Vec3 :=
  cross3 (faceVert verts faces k 1 - faceVert verts faces k 0)
    (faceVert verts faces k 2 - faceVert verts faces k 0)

/-- Per-face unit normals: `normalize(cross(v1 - v0, v2 - v0))`. -/
def compute_face_normals {V F : ℕ} (verts : Fin V → Vec3) (faces : Fin F → Fin 3 → Fin V)
    (k : Fin F) : Vec3 :=
  normalize3 (faceCross verts faces k)

/-- The interior angle of face `k` at corner `i`:
`safe_acos` of the dot product of the two normalized edge directions leaving
corner `i`. -/
def cornerAngle {V F : ℕ} (verts : Fin V → Vec3) (faces : Fin F → Fin 3 → Fin V)
    (k : Fin F) (i : Fin 3) : ℝ :=
  safe_acos (dot3
    (normalize3 (faceVert verts faces k (i + 1) - faceVert verts faces k i))
    (normalize3 (faceVert verts faces k (i + 2) - faceVert verts faces k i)))

/-- The scatter-added accumulator of `compute_vertex_normals`: every corner of
every face contributes `face_normal * corner_angle` to its vertex. -/
def vertexAccum {V F : ℕ} (verts : Fin V → Vec3) (faces : Fin F → Fin 3 → Fin V)
    (face_normals : Fin F → Vec3) (p : Fin V) : Vec3 :=
  ∑ k : Fin F, ∑ i : Fin 3,
    if faces k i = p then cornerAngle verts faces k i • face_normals k else 0

/-- Per-vertex normals: the angle-weighted accumulator, normalized per vertex
(`normals / torch.norm(normals, dim=0)`). -/
def compute_vertex_normals {V F : ℕ} (verts : Fin V → Vec3) (faces : Fin F → Fin 3 → Fin V)
    (face_normals : Fin F → Vec3) (p : Fin V) : Vec3 :=
  normalize3 (vertexAccum verts faces face_normals p)

/-- Lexicographic strict order on 3-vectors, the row order used by
`torch.unique(..., dim=0)` when sorting unique rows. -/
def vec3Lt (a b : Vec3) : Prop :=
  a 0 < b 0 ∨ (a 0 = b 0 ∧ (a 1 < b 1 ∨ (a 1 = b 1 ∧ a 2 < b 2)))

/-- Reflexive closure of the lexicographic row order. -/
def vec3Le (a b : Vec3) : Prop := vec3Lt a b ∨ a = b

/-- Insert a row into a lexicographically sorted list of rows. -/
def insertVec (x : Vec3) : List Vec3 → List Vec3
  | [] => [x]
  | y :: ys => if vec3Le x y then x :: y :: ys else y :: insertVec x ys

/-- Sort a list of rows lexicographically (insertion sort); models the sorted
order in which `torch.unique(..., dim=0)` returns unique rows. -/
def sortVecs : List Vec3 → List Vec3
  | [] => []
  | x :: xs => insertVec x (sortVecs xs)

/-- The first output of `torch.unique(v, dim=0)`: the distinct rows of `v` in
sorted order. -/
def uniqueVerts (v : List Vec3) : List Vec3 := sortVecs v.dedup

/-- The `return_inverse=True` output of `torch.unique(v, dim=0)`: for each
original row, its index in the sorted unique row list. -/
def inverseMap (v : List Vec3) : List ℕ := v.map fun x => (uniqueVerts v).indexOf x

/-- Default face used to totalize list indexing. -/
def fdef : Fin 3 → ℕ := fun _ => 0

/-- `remove_duplicates`: returns the unique vertices, the faces re-indexed
through the inverse map (`new_faces = inverse[f]`), and the inverse map. -/
def remove_duplicates (v : List Vec3) (f : List (Fin 3 → ℕ)) :
    List Vec3 × List (Fin 3 → ℕ) × List ℕ :=
  (uniqueVerts v, f.map fun face j => (inverseMap v).getD (face j) 0, inverseMap v)

/-- The system matrix assembled in `optimize_shape`: the call
`compute_matrix(v_unique, f_unique, lambda_)` passes no `cotan` argument, so
the flag takes its default `False` whatever the configured `cotan` value is. -/
def optimizeShapeMatrix {V F : ℕ} (verts : Fin V → Vec3) (faces : Fin F → Fin 3 → Fin V)
    (lambda_ : ℝ) (cotan : Bool) : Matrix (Fin V) (Fin V) ℝ :=
  compute_matrix verts faces lambda_ false

/-- The Laplacian `optimize_shape` builds for the regularization term: here the
configured `cotan` flag does select between the two modes. -/
def optimizeRegLaplacian {V F : ℕ} (verts : Fin V → Vec3) (faces : Fin F → Fin 3 → Fin V)
    (cotan : Bool) : Matrix (Fin V) (Fin V) ℝ :=
  if cotan then laplacian_cot verts faces else laplacian_uniform verts faces

/-- Spec-side notion for C5: `{i, j}` is an edge of some triangle, i.e. a pair
of cyclically consecutive corners of some face, in either orientation. -/
def isEdge {V F : ℕ} (faces : Fin F → Fin 3 → Fin V) (i j : Fin V) : Prop :=
  ∃ k : Fin F, ∃ m : Fin 3,
    (faces k m = i ∧ faces k (m + 1) = j) ∨ (faces k m = j ∧ faces k (m + 1) = i)

/-- Spec-side notion for C5: the number of distinct neighbors of vertex `i`. -/
def numNeighbors {V F : ℕ} (faces : Fin F → Fin 3 → Fin V) (i : Fin V) : ℕ :=
  (Finset.univ.filter fun j => j ≠ i ∧ (i, j) ∈ edgePairs faces).card

/-- Spec-side formulation for C6: the side of face `k` opposite corner `m`. -/
def oppSide {V F : ℕ} (verts : Fin V → Vec3) (faces : Fin F → Fin 3 → Fin V)
    (k : Fin F) (m : Fin 3) : ℝ :=
  norm3 (faceVert verts faces k (m + 1) - faceVert verts faces k (m + 2))

/-- Spec-side formulation for C6: Heron's formula from the semiperimeter, with
the product under the square root clamped to the floor `1e-12`. -/
def heronAreaSpec (a b c : ℝ) : ℝ :=
  Real.sqrt (max ((a + b + c) / 2 * ((a + b + c) / 2 - a) * ((a + b + c) / 2 - b) *
    ((a + b + c) / 2 - c)) 1e-12)

/-- Spec-side formulation for C6: the cotangent weight of the angle of face `k`
at corner `m`: sum of squares of the two edges adjacent to that corner, minus
the square of the opposite edge, divided by `4 ×` the clamped Heron area. -/
def cotWeightSpec {V F : ℕ} (verts : Fin V → Vec3) (faces : Fin F → Fin 3 → Fin V)
    (k : Fin F) (m : Fin 3) : ℝ :=
  (oppSide verts faces k (m + 1) ^ 2 + oppSide verts faces k (m + 2) ^ 2 -
      oppSide verts faces k m ^ 2) /
    (4 * heronAreaSpec (oppSide verts faces k 0) (oppSide verts faces k 1)
      (oppSide verts faces k 2))

/-- Spec-side formulation for C6: the symmetric matrix of summed per-triangle
cotangent weights, each triangle contributing its weight at corner `m` to the
unordered pair of the two other corners. -/
def cotOffSpec {V F : ℕ} (verts : Fin V → Vec3) (faces : Fin F → Fin 3 → Fin V) :
    Matrix (Fin V) (Fin V) ℝ :=
  Matrix.of fun i j =>
    ∑ k : Fin F, ∑ m : Fin 3,
      if (faces k (m + 1) = i ∧ faces k (m + 2) = j) ∨
          (faces k (m + 2) = i ∧ faces k (m + 1) = j) then
        cotWeightSpec verts faces k m
      else 0

/-- A unit tetrahedron: 4 vertices, 4 triangular faces. -/
def tetVerts : Fin 4 → Vec3 := ![![0, 0, 0], ![1, 0, 0], ![0, 1, 0], ![0, 0, 1]]

/-- Faces of the tetrahedron. -/
def tetFaces : Fin 4 → Fin 3 → Fin 4 := ![![0, 1, 2], ![0, 3, 1], ![0, 2, 3], ![1, 3, 2]]

/-- Vertices of the right triangle used in concrete scenarios. -/
def ceVerts : Fin 3 → Vec3 := ![![0, 0, 0], ![1, 0, 0], ![0, 1, 0]]

/-- Two faces over the same three vertices with opposite winding. -/
def ceFaces : Fin 2 → Fin 3 → Fin 3 := ![![0, 1, 2], ![0, 2, 1]]

/-- A single face over the right triangle. -/
def triFaces : Fin 1 → Fin 3 → Fin 3 := ![![0, 1, 2]]

/-- Concrete row `(0,0,0)`. -/
def w0 : Vec3 := ![0, 0, 0]

/-- Concrete row `(1,0,0)`. -/
def w1 : Vec3 := ![1, 0, 0]

theorem mem_edgePairs {V F : ℕ} (faces : Fin F → Fin 3 → Fin V) (i j : Fin V) :
    (i, j) ∈ edgePairs faces ↔ ∃ k : Fin F,
      (i, j) = (faces k 1, faces k 2) ∨ (i, j) = (faces k 2, faces k 0) ∨
      (i, j) = (faces k 0, faces k 1) ∨ (i, j) = (faces k 2, faces k 1) ∨
      (i, j) = (faces k 0, faces k 2) ∨ (i, j) = (faces k 1, faces k 0) := by
  simp [edgePairs]

theorem edgePairs_swap {V F : ℕ} (faces : Fin F → Fin 3 → Fin V) {i j : Fin V}
    (h : (i, j) ∈ edgePairs faces) : (j, i) ∈ edgePairs faces := by
  rw [mem_edgePairs] at h ⊢
  obtain ⟨k, hk⟩ := h
  refine ⟨k, ?_⟩
  simp only [Prod.mk.injEq] at hk ⊢
  tauto

theorem vertexDegree_eq_card {V F : ℕ} (faces : Fin F → Fin 3 → Fin V) (i : Fin V) :
    vertexDegree faces i = (Finset.univ.filter fun j => (i, j) ∈ edgePairs faces).card := by
  unfold vertexDegree
  have himg : (edgePairs faces).filter (fun p => p.1 = i) =
      (Finset.univ.filter fun j => (i, j) ∈ edgePairs faces).image fun j => (i, j) := by
    ext p
    simp only [Finset.mem_filter, Finset.mem_image, Finset.mem_univ, true_and]
    constructor
    · rintro ⟨hp, h1⟩
      exact ⟨p.2, by rwa [show ((i, p.2) : Fin V × Fin V) = p from by
        rw [← h1]], by rw [← h1]⟩
    · rintro ⟨j, hj, rfl⟩
      exact ⟨hj, rfl⟩
  rw [himg, Finset.card_image_of_injective]
  intro a b hab
  simpa using hab

theorem laplacian_uniform_diag {V F : ℕ} (verts : Fin V → Vec3)
    (faces : Fin F → Fin 3 → Fin V) (i : Fin V) :
    laplacian_uniform verts faces i i = (numNeighbors faces i : ℝ) := by
  have hsplit :
      ((Finset.univ.filter fun j => (i, j) ∈ edgePairs faces).filter fun j => j ≠ i).card +
        ((Finset.univ.filter fun j => (i, j) ∈ edgePairs faces).filter fun j => ¬j ≠ i).card =
        (Finset.univ.filter fun j => (i, j) ∈ edgePairs faces).card :=
    Finset.filter_card_add_filter_neg_card_eq_card _
  have h1 : ((Finset.univ.filter fun j => (i, j) ∈ edgePairs faces).filter fun j => j ≠ i) =
      Finset.univ.filter fun j => j ≠ i ∧ (i, j) ∈ edgePairs faces := by
    rw [Finset.filter_filter]
    exact Finset.filter_congr fun j _ => by tauto
  have h2 : (((Finset.univ.filter fun j => (i, j) ∈ edgePairs faces).filter
        fun j => ¬j ≠ i)).card = if (i, i) ∈ edgePairs faces then 1 else 0 := by
    simp only [not_not, Finset.filter_eq', Finset.mem_filter, Finset.mem_univ, true_and]
    by_cases hii : (i, i) ∈ edgePairs faces <;> simp [hii]
  have hdeg : vertexDegree faces i =
      numNeighbors faces i + (if (i, i) ∈ edgePairs faces then 1 else 0) := by
    rw [vertexDegree_eq_card, ← hsplit, h1, h2]
    rfl
  unfold laplacian_uniform
  simp only [Matrix.of_apply]
  rw [hdeg]
  push_cast
  split_ifs <;> ring

theorem laplacian_uniform_off_diag {V F : ℕ} (verts : Fin V → Vec3)
    (faces : Fin F → Fin 3 → Fin V) {i j : Fin V} (h : i ≠ j) :
    laplacian_uniform verts faces i j =
      if (i, j) ∈ edgePairs faces then (-1 : ℝ) else 0 := by
  unfold laplacian_uniform
  simp only [Matrix.of_apply]
  rw [if_neg h, add_zero]

theorem fin3_add01 : (0 : Fin 3) + 1 = 1 := by decide

theorem fin3_add12 : (1 : Fin 3) + 1 = 2 := by decide

theorem fin3_add20 : (2 : Fin 3) + 1 = 0 := by decide

theorem fin3_add02 : (0 : Fin 3) + 2 = 2 := by decide

theorem fin3_add10 : (1 : Fin 3) + 2 = 0 := by decide

theorem fin3_add21 : (2 : Fin 3) + 2 = 1 := by decide

theorem isEdge_iff_mem_edgePairs {V F : ℕ} (faces : Fin F → Fin 3 → Fin V) (i j : Fin V) :
    isEdge faces i j ↔ (i, j) ∈ edgePairs faces := by
  rw [mem_edgePairs]
  unfold isEdge
  constructor
  · rintro ⟨k, m, hm⟩
    refine ⟨k, ?_⟩
    simp only [Prod.mk.injEq]
    fin_cases m
    · simp only [fin3_add01] at hm
      rcases hm with ⟨h1, h2⟩ | ⟨h1, h2⟩
      · exact Or.inr (Or.inr (Or.inl ⟨h1.symm, h2.symm⟩))
      · exact Or.inr (Or.inr (Or.inr (Or.inr (Or.inr ⟨h2.symm, h1.symm⟩))))
    · simp only [fin3_add12] at hm
      rcases hm with ⟨h1, h2⟩ | ⟨h1, h2⟩
      · exact Or.inl ⟨h1.symm, h2.symm⟩
      · exact Or.inr (Or.inr (Or.inr (Or.inl ⟨h2.symm, h1.symm⟩)))
    · simp only [fin3_add20] at hm
      rcases hm with ⟨h1, h2⟩ | ⟨h1, h2⟩
      · exact Or.inr (Or.inl ⟨h1.symm, h2.symm⟩)
      · exact Or.inr (Or.inr (Or.inr (Or.inr (Or.inl ⟨h2.symm, h1.symm⟩))))
  · rintro ⟨k, hk⟩
    simp only [Prod.mk.injEq] at hk
    rcases hk with h | h | h | h | h | h
    · exact ⟨k, 1, Or.inl ⟨h.1.symm, by rw [fin3_add12]; exact h.2.symm⟩⟩
    · exact ⟨k, 2, Or.inl ⟨h.1.symm, by rw [fin3_add20]; exact h.2.symm⟩⟩
    · exact ⟨k, 0, Or.inl ⟨h.1.symm, by rw [fin3_add01]; exact h.2.symm⟩⟩
    · exact ⟨k, 1, Or.inr ⟨h.2.symm, by rw [fin3_add12]; exact h.1.symm⟩⟩
    · exact ⟨k, 2, Or.inr ⟨h.2.symm, by rw [fin3_add20]; exact h.1.symm⟩⟩
    · exact ⟨k, 0, Or.inr ⟨h.2.symm, by rw [fin3_add01]; exact h.1.symm⟩⟩

theorem laplacian_uniform_row_sum {V F : ℕ} (verts : Fin V → Vec3)
    (faces : Fin F → Fin 3 → Fin V) (i : Fin V) :
    ∑ j, laplacian_uniform verts faces i j = 0 := by
  unfold laplacian_uniform
  simp only [Matrix.of_apply]
  rw [Finset.sum_add_distrib]
  have h1 : ∑ j, (if (i, j) ∈ edgePairs faces then (-1 : ℝ) else 0) =
      -((Finset.univ.filter fun j => (i, j) ∈ edgePairs faces).card : ℝ) := by
    rw [Finset.sum_ite, Finset.sum_const, Finset.sum_const_zero, add_zero]
    simp
  have h2 : ∑ j, (if i = j then (vertexDegree faces i : ℝ) else 0) =
      (vertexDegree faces i : ℝ) := by
    rw [Finset.sum_ite_eq]
    simp
  rw [h1, h2, vertexDegree_eq_card]
  ring

theorem laplacian_uniform_symm {V F : ℕ} (verts : Fin V → Vec3)
    (faces : Fin F → Fin 3 → Fin V) :
    (laplacian_uniform verts faces)ᵀ = laplacian_uniform verts faces := by
  ext i j
  rw [Matrix.transpose_apply]
  by_cases hij : i = j
  · subst hij; rfl
  · rw [laplacian_uniform_off_diag verts faces hij,
      laplacian_uniform_off_diag verts faces (Ne.symm hij)]
    by_cases h : (i, j) ∈ edgePairs faces
    · rw [if_pos h, if_pos (edgePairs_swap faces h)]
    · rw [if_neg h, if_neg fun hc => h (edgePairs_swap faces hc)]

theorem cotSym_symm {V F : ℕ} (verts : Fin V → Vec3) (faces : Fin F → Fin 3 → Fin V) :
    (cotSym verts faces)ᵀ = cotSym verts faces := by
  unfold cotSym
  rw [Matrix.transpose_add, Matrix.transpose_transpose, add_comm]

theorem laplacian_cot_symm {V F : ℕ} (verts : Fin V → Vec3) (faces : Fin F → Fin 3 → Fin V) :
    (laplacian_cot verts faces)ᵀ = laplacian_cot verts faces := by
  unfold laplacian_cot
  rw [Matrix.transpose_sub, Matrix.diagonal_transpose, cotSym_symm]

theorem laplacian_cot_row_sum {V F : ℕ} (verts : Fin V → Vec3)
    (faces : Fin F → Fin 3 → Fin V) (i : Fin V) :
    ∑ j, laplacian_cot verts faces i j = 0 := by
  unfold laplacian_cot
  simp only [Matrix.sub_apply, Matrix.diagonal_apply]
  rw [Finset.sum_sub_distrib]
  have h1 : ∑ j, (if i = j then ∑ m, cotSym verts faces m i else 0) =
      ∑ m, cotSym verts faces m i := by
    rw [Finset.sum_ite_eq]
    simp
  have h2 : ∑ m, cotSym verts faces m i = ∑ j, cotSym verts faces i j := by
    unfold cotSym
    simp only [Matrix.add_apply, Matrix.transpose_apply]
    rw [Finset.sum_add_distrib, Finset.sum_add_distrib, add_comm]
  rw [h1, h2, sub_self]

theorem compute_matrix_false_eq {V F : ℕ} (verts : Fin V → Vec3)
    (faces : Fin F → Fin 3 → Fin V) (lambda_ : ℝ) :
    compute_matrix verts faces lambda_ false =
      1 + lambda_ • laplacian_uniform verts faces := by
  unfold compute_matrix
  simp

theorem compute_matrix_true_eq {V F : ℕ} (verts : Fin V → Vec3)
    (faces : Fin F → Fin 3 → Fin V) (lambda_ : ℝ) :
    compute_matrix verts faces lambda_ true =
      1 + lambda_ • laplacian_cot verts faces := by
  unfold compute_matrix
  simp

theorem compute_matrix_symm {V F : ℕ} (verts : Fin V → Vec3)
    (faces : Fin F → Fin 3 → Fin V) (lambda_ : ℝ) (cotan : Bool) :
    (compute_matrix verts faces lambda_ cotan)ᵀ = compute_matrix verts faces lambda_ cotan := by
  cases cotan
  · rw [compute_matrix_false_eq, Matrix.transpose_add, Matrix.transpose_one,
      Matrix.transpose_smul, laplacian_uniform_symm]
  · rw [compute_matrix_true_eq, Matrix.transpose_add, Matrix.transpose_one,
      Matrix.transpose_smul, laplacian_cot_symm]

theorem sum_edgePairs_swap {V F : ℕ} (faces : Fin F → Fin 3 → Fin V)
    (g : Fin V → Fin V → ℝ) :
    ∑ p ∈ edgePairs faces, g p.1 p.2 = ∑ p ∈ edgePairs faces, g p.2 p.1 := by
  refine Finset.sum_bij' (fun p _ => Prod.swap p) (fun p _ => Prod.swap p) ?_ ?_ ?_ ?_ ?_
  · intro p hp
    exact edgePairs_swap faces (Prod.mk.eta ▸ hp)
  · intro p hp
    exact edgePairs_swap faces (Prod.mk.eta ▸ hp)
  · intro p _
    exact Prod.swap_swap p
  · intro p _
    exact Prod.swap_swap p
  · intro p _
    rfl

theorem sum_indicator_edgePairs {V F : ℕ} (faces : Fin F → Fin 3 → Fin V)
    (g : Fin V → Fin V → ℝ) :
    ∑ i, ∑ j, (if (i, j) ∈ edgePairs faces then g i j else 0) =
      ∑ p ∈ edgePairs faces, g p.1 p.2 := by
  rw [← Finset.sum_product', Finset.univ_product_univ]
  simp only [Prod.mk.eta]
  exact Fintype.sum_ite_mem (edgePairs faces) fun p => g p.1 p.2

theorem sum_degree_weighted {V F : ℕ} (faces : Fin F → Fin 3 → Fin V) (g : Fin V → ℝ) :
    ∑ i, (vertexDegree faces i : ℝ) * g i = ∑ p ∈ edgePairs faces, g p.1 := by
  rw [← Finset.sum_fiberwise' (edgePairs faces) Prod.fst g]
  refine Finset.sum_congr rfl fun j _ => ?_
  rw [Finset.sum_const, nsmul_eq_mul]
  rfl

theorem lapU_quadform {V F : ℕ} (verts : Fin V → Vec3) (faces : Fin F → Fin 3 → Fin V)
    (x : Fin V → ℝ) :
    x ⬝ᵥ (laplacian_uniform verts faces *ᵥ x) =
      (∑ p ∈ edgePairs faces, (x p.1 - x p.2) ^ 2) / 2 := by
  have expand : x ⬝ᵥ (laplacian_uniform verts faces *ᵥ x) =
      (∑ i, ∑ j, (if (i, j) ∈ edgePairs faces then -(x i * x j) else 0)) +
        ∑ i, (vertexDegree faces i : ℝ) * (x i * x i) := by
    unfold laplacian_uniform
    simp only [Matrix.dotProduct, Matrix.mulVec, Matrix.of_apply]
    have hterm : ∀ i : Fin V,
        x i * ∑ j, ((if (i, j) ∈ edgePairs faces then (-1 : ℝ) else 0) +
            (if i = j then (vertexDegree faces i : ℝ) else 0)) * x j =
          (∑ j, (if (i, j) ∈ edgePairs faces then -(x i * x j) else 0)) +
            (vertexDegree faces i : ℝ) * (x i * x i) := by
      intro i
      rw [Finset.mul_sum]
      have hsplit : ∀ j : Fin V,
          x i * (((if (i, j) ∈ edgePairs faces then (-1 : ℝ) else 0) +
              (if i = j then (vertexDegree faces i : ℝ) else 0)) * x j) =
            (if (i, j) ∈ edgePairs faces then -(x i * x j) else 0) +
              (if i = j then (vertexDegree faces i : ℝ) * (x i * x j) else 0) := by
        intro j
        split_ifs <;> ring
      rw [Finset.sum_congr rfl fun j _ => hsplit j, Finset.sum_add_distrib]
      congr 1
      rw [Finset.sum_ite_eq]
      simp
    rw [Finset.sum_congr rfl fun i _ => hterm i, Finset.sum_add_distrib]
  rw [expand, sum_indicator_edgePairs faces fun i j => -(x i * x j),
    sum_degree_weighted faces fun i => x i * x i, Finset.sum_neg_distrib]
  have hswap : ∑ p ∈ edgePairs faces, x p.2 * x p.2 =
      ∑ p ∈ edgePairs faces, x p.1 * x p.1 :=
    sum_edgePairs_swap faces fun a b => x b * x b
  have hsq : ∑ p ∈ edgePairs faces, (x p.1 - x p.2) ^ 2 =
      (∑ p ∈ edgePairs faces, x p.1 * x p.1) -
        2 * (∑ p ∈ edgePairs faces, x p.1 * x p.2) +
        ∑ p ∈ edgePairs faces, x p.2 * x p.2 := by
    rw [Finset.mul_sum, ← Finset.sum_sub_distrib, ← Finset.sum_add_distrib]
    exact Finset.sum_congr rfl fun p _ => by ring
  linarith [hsq, hswap]

theorem lapU_quadform_nonneg {V F : ℕ} (verts : Fin V → Vec3)
    (faces : Fin F → Fin 3 → Fin V) (x : Fin V → ℝ) :
    0 ≤ x ⬝ᵥ (laplacian_uniform verts faces *ᵥ x) := by
  rw [lapU_quadform]
  apply div_nonneg _ (by norm_num)
  exact Finset.sum_nonneg fun p _ => sq_nonneg _

theorem compute_matrix_false_posDef {V F : ℕ} (verts : Fin V → Vec3)
    (faces : Fin F → Fin 3 → Fin V) {lambda_ : ℝ} (h : 0 ≤ lambda_) :
    (compute_matrix verts faces lambda_ false).PosDef := by
  constructor
  · show (compute_matrix verts faces lambda_ false)ᴴ = _
    rw [Matrix.conjTranspose_eq_transpose_of_trivial]
    exact compute_matrix_symm verts faces lambda_ false
  · intro x hx
    have hstar : star x = x := by
      funext i
      simp
    rw [hstar, compute_matrix_false_eq, Matrix.add_mulVec, Matrix.one_mulVec,
      Matrix.dotProduct_add, Matrix.smul_mulVec_assoc, Matrix.dotProduct_smul, smul_eq_mul]
    have h1 : 0 < x ⬝ᵥ x := by
      have hnn : 0 ≤ x ⬝ᵥ x := Finset.sum_nonneg fun i _ => mul_self_nonneg _
      have hne : x ⬝ᵥ x ≠ 0 := fun hc => hx (Matrix.dotProduct_self_eq_zero.mp hc)
      exact lt_of_le_of_ne hnn (Ne.symm hne)
    have h2 : 0 ≤ lambda_ * (x ⬝ᵥ (laplacian_uniform verts faces *ᵥ x)) :=
      mul_nonneg h (lapU_quadform_nonneg verts faces x)
    linarith

theorem compute_matrix_false_round_trip {V F : ℕ} (verts : Fin V → Vec3)
    (faces : Fin F → Fin 3 → Fin V) {lambda_ : ℝ} (h : 0 ≤ lambda_)
    (v : Matrix (Fin V) (Fin 3) ℝ) :
    from_differential (compute_matrix verts faces lambda_ false)
      (to_differential (compute_matrix verts faces lambda_ false) v) = v := by
  have hpd := compute_matrix_false_posDef verts faces h
  have hdet : IsUnit (compute_matrix verts faces lambda_ false).det :=
    hpd.det_pos.ne'.isUnit
  unfold from_differential to_differential
  rw [← Matrix.mul_assoc, Matrix.nonsing_inv_mul _ hdet, Matrix.one_mul]

theorem numNeighbors_tet (i : Fin 4) : numNeighbors tetFaces i = 3 := by
  fin_cases i <;> decide

/-- Claim C1: for every mesh and every regularization strength λ ≥ 0, with the
system matrix `M = I + λ·L` as assembled in `optimize_shape` (where
`compute_matrix` is called with the default `cotan=False`), applying
`to_differential` to arbitrary positions `v` and then `from_differential` to
the result returns `v` again (exactly, in the real-number model of the solver
tolerance). -/
theorem C1_round_trip : ∀ (V F : ℕ) (verts : Fin V → Vec3) (faces : Fin F → Fin 3 → Fin V)
    (lambda_ : ℝ), 0 ≤ lambda_ → ∀ v : Matrix (Fin V) (Fin 3) ℝ,
    from_differential (compute_matrix verts faces lambda_ false)
      (to_differential (compute_matrix verts faces lambda_ false) v) = v :=
  fun _ _ verts faces _ h v => compute_matrix_false_round_trip verts faces h v

/-- Witness for C1: the round trip at the concrete tetrahedron with λ = 1. -/
theorem C1_round_trip_witness :
    (0 : ℝ) ≤ 1 ∧
      from_differential (compute_matrix tetVerts tetFaces 1 false)
        (to_differential (compute_matrix tetVerts tetFaces 1 false) 0) = 0 :=
  ⟨by norm_num, C1_round_trip 4 4 tetVerts tetFaces 1 (by norm_num) 0⟩

/-- Claim C2: for every mesh, both the uniform and the cotangent Laplacian have
zero row sums. -/
theorem C2_zero_row_sums : ∀ (V F : ℕ) (verts : Fin V → Vec3)
    (faces : Fin F → Fin 3 → Fin V) (i : Fin V),
    (∑ j, laplacian_uniform verts faces i j = 0) ∧
      (∑ j, laplacian_cot verts faces i j = 0) :=
  fun _ _ verts faces i =>
    ⟨laplacian_uniform_row_sum verts faces i, laplacian_cot_row_sum verts faces i⟩

/-- Claim C3: for every mesh and every λ ≥ 0, in either weighting mode, the
matrix `M = I + λ·L` returned by `compute_matrix` is symmetric. -/
theorem C3_system_matrix_symmetric : ∀ (V F : ℕ) (verts : Fin V → Vec3)
    (faces : Fin F → Fin 3 → Fin V) (lambda_ : ℝ) (cotan : Bool), 0 ≤ lambda_ →
    (compute_matrix verts faces lambda_ cotan)ᵀ = compute_matrix verts faces lambda_ cotan :=
  fun _ _ verts faces lambda_ cotan _ => compute_matrix_symm verts faces lambda_ cotan

/-- Witness for C3: symmetry at the concrete tetrahedron with λ = 1, in both
modes. -/
theorem C3_system_matrix_symmetric_witness :
    (0 : ℝ) ≤ 1 ∧
      (compute_matrix tetVerts tetFaces 1 false)ᵀ = compute_matrix tetVerts tetFaces 1 false ∧
      (compute_matrix tetVerts tetFaces 1 true)ᵀ = compute_matrix tetVerts tetFaces 1 true :=
  ⟨by norm_num, C3_system_matrix_symmetric 4 4 tetVerts tetFaces 1 false (by norm_num),
    C3_system_matrix_symmetric 4 4 tetVerts tetFaces 1 true (by norm_num)⟩

/-- Claim C4: for every mesh and either weighting mode, λ = 0 makes
`compute_matrix` return the identity matrix, and `to_differential` /
`from_differential` become the identity transform. -/
theorem C4_lambda_zero_identity : ∀ (V F : ℕ) (verts : Fin V → Vec3)
    (faces : Fin F → Fin 3 → Fin V) (cotan : Bool) (v : Matrix (Fin V) (Fin 3) ℝ),
    compute_matrix verts faces 0 cotan = 1 ∧
      to_differential (compute_matrix verts faces 0 cotan) v = v ∧
      from_differential (compute_matrix verts faces 0 cotan) v = v := by
  intro V F verts faces cotan v
  have hM : compute_matrix verts faces 0 cotan = 1 := by
    unfold compute_matrix
    rw [zero_smul, add_zero]
  refine ⟨hM, ?_, ?_⟩
  · unfold to_differential
    rw [hM, Matrix.one_mul]
  · unfold from_differential
    rw [hM, inv_one, Matrix.one_mul]

/-- Claim C5: the uniform Laplacian has off-diagonal entry `-1` exactly at the
(deduplicated, symmetric) triangle edges and `0` otherwise, its diagonal entry
at `i` is the number of distinct neighbors of `i`, and on the unit tetrahedron
every diagonal entry is `3`. -/
theorem C5_uniform_entries :
    (∀ (V F : ℕ) (verts : Fin V → Vec3) (faces : Fin F → Fin 3 → Fin V) (i j : Fin V),
        i ≠ j → laplacian_uniform verts faces i j =
          if isEdge faces i j then (-1 : ℝ) else 0) ∧
      (∀ (V F : ℕ) (verts : Fin V → Vec3) (faces : Fin F → Fin 3 → Fin V) (i : Fin V),
        laplacian_uniform verts faces i i = (numNeighbors faces i : ℝ)) ∧
      (∀ i : Fin 4, laplacian_uniform tetVerts tetFaces i i = 3) := by
  refine ⟨?_, ?_, ?_⟩
  · intro V F verts faces i j h
    rw [laplacian_uniform_off_diag verts faces h]
    simp only [isEdge_iff_mem_edgePairs]
  · intro V F verts faces i
    exact laplacian_uniform_diag verts faces i
  · intro i
    rw [laplacian_uniform_diag, numNeighbors_tet]
    norm_num

/-- Witness for C5: the off-diagonal characterization instantiated at the
tetrahedron for the distinct pair `(0, 1)`. -/
theorem C5_uniform_entries_witness :
    laplacian_uniform tetVerts tetFaces 0 1 =
      if isEdge tetFaces (0 : Fin 4) 1 then (-1 : ℝ) else 0 :=
  C5_uniform_entries.1 4 4 tetVerts tetFaces 0 1 (by decide)

/-- Claim C10: the system matrix used by `optimize_shape` for
`to_differential`/`from_differential` is always assembled from the uniform
Laplacian (the `cotan` argument is not forwarded, so its default `False`
applies), while the configured `cotan` flag only selects the Laplacian of the
separate regularization term. -/
theorem C10_matrix_ignores_cotan : ∀ (V F : ℕ) (verts : Fin V → Vec3)
    (faces : Fin F → Fin 3 → Fin V) (lambda_ : ℝ) (cotan : Bool),
    optimizeShapeMatrix verts faces lambda_ cotan =
        1 + lambda_ • laplacian_uniform verts faces ∧
      optimizeRegLaplacian verts faces true = laplacian_cot verts faces ∧
      optimizeRegLaplacian verts faces false = laplacian_uniform verts faces := by
  intro V F verts faces lambda_ cotan
  refine ⟨?_, ?_, ?_⟩
  · unfold optimizeShapeMatrix
    exact compute_matrix_false_eq verts faces lambda_
  · unfold optimizeRegLaplacian
    simp
  · unfold optimizeRegLaplacian
    simp

theorem norm3_sub_comm (x y : Vec3) : norm3 (x - y) = norm3 (y - x) := by
  unfold norm3
  simp only [Pi.sub_apply]
  congr 1
  ring

theorem oppSide_zero {V F : ℕ} (verts : Fin V → Vec3) (faces : Fin F → Fin 3 → Fin V)
    (k : Fin F) : oppSide verts faces k 0 = sideA verts faces k := by
  unfold oppSide sideA
  rw [fin3_add01, fin3_add02]

theorem oppSide_one {V F : ℕ} (verts : Fin V → Vec3) (faces : Fin F → Fin 3 → Fin V)
    (k : Fin F) : oppSide verts faces k 1 = sideB verts faces k := by
  unfold oppSide sideB
  rw [fin3_add12, fin3_add10, norm3_sub_comm]

theorem oppSide_two {V F : ℕ} (verts : Fin V → Vec3) (faces : Fin F → Fin 3 → Fin V)
    (k : Fin F) : oppSide verts faces k 2 = sideC verts faces k := by
  unfold oppSide sideC
  rw [fin3_add20, fin3_add21]

theorem faceArea_eq_heronSpec {V F : ℕ} (verts : Fin V → Vec3)
    (faces : Fin F → Fin 3 → Fin V) (k : Fin F) :
    faceArea verts faces k =
      heronAreaSpec (sideA verts faces k) (sideB verts faces k) (sideC verts faces k) := by
  unfold faceArea heronAreaSpec semiPerim
  congr 2
  ring

theorem heronSpec_oppSides {V F : ℕ} (verts : Fin V → Vec3)
    (faces : Fin F → Fin 3 → Fin V) (k : Fin F) :
    heronAreaSpec (oppSide verts faces k 0) (oppSide verts faces k 1)
        (oppSide verts faces k 2) = faceArea verts faces k := by
  rw [oppSide_zero, oppSide_one, oppSide_two, faceArea_eq_heronSpec]

theorem fin3_cases (m : Fin 3) : m = 0 ∨ m = 1 ∨ m = 2 := by
  revert m
  decide

theorem cotWeightSpec_eq_cotScaled {V F : ℕ} (verts : Fin V → Vec3)
    (faces : Fin F → Fin 3 → Fin V) (k : Fin F) (m : Fin 3) :
    cotWeightSpec verts faces k m = cotScaled verts faces k m := by
  rcases fin3_cases m with rfl | rfl | rfl
  · unfold cotWeightSpec cotScaled cotStack
    rw [fin3_add01, fin3_add02, heronSpec_oppSides, oppSide_zero, oppSide_one, oppSide_two]
    rw [if_pos rfl]
    ring
  · unfold cotWeightSpec cotScaled cotStack
    rw [fin3_add12, fin3_add10, heronSpec_oppSides, oppSide_zero, oppSide_one, oppSide_two]
    rw [if_neg (by decide), if_pos rfl]
    ring
  · unfold cotWeightSpec cotScaled cotStack
    rw [fin3_add20, fin3_add21, heronSpec_oppSides, oppSide_zero, oppSide_one, oppSide_two]
    rw [if_neg (by decide), if_neg (by decide)]
    ring

theorem ite_add_ite_or {P Q : Prop} [Decidable P] [Decidable Q] [Decidable (P ∨ Q)]
    (w : ℝ) (h : ¬(P ∧ Q)) :
    (if P then w else 0) + (if Q then w else 0) = if P ∨ Q then w else 0 := by
  by_cases hp : P
  · have hq : ¬Q := fun hq => h ⟨hp, hq⟩
    rw [if_pos hp, if_neg hq, if_pos (Or.inl hp), add_zero]
  · by_cases hq : Q
    · rw [if_neg hp, if_pos hq, if_pos (Or.inr hq), zero_add]
    · rw [if_neg hp, if_neg hq, if_neg (by tauto), add_zero]

theorem cotSym_eq_cotOffSpec {V F : ℕ} (verts : Fin V → Vec3)
    (faces : Fin F → Fin 3 → Fin V) {i j : Fin V} (h : i ≠ j) :
    cotSym verts faces i j = cotOffSpec verts faces i j := by
  unfold cotSym cotAssembled cotOffSpec
  simp only [Matrix.add_apply, Matrix.transpose_apply, Matrix.of_apply]
  rw [← Finset.sum_add_distrib]
  refine Finset.sum_congr rfl fun k _ => ?_
  rw [← Finset.sum_add_distrib]
  refine Finset.sum_congr rfl fun m _ => ?_
  rw [cotWeightSpec_eq_cotScaled]
  have hne : ¬((faces k (m + 1) = i ∧ faces k (m + 2) = j) ∧
      (faces k (m + 1) = j ∧ faces k (m + 2) = i)) := by
    rintro ⟨⟨h1, -⟩, h3, -⟩
    exact h (h1.symm.trans h3)
  rw [ite_add_ite_or _ hne]
  exact if_congr (by tauto) rfl rfl

/-- Claim C6: `laplacian_cot` computes each triangle area by Heron's formula
with the product under the square root clamped to the floor `1e-12` before
`sqrt`; each triangle contributes, to the symmetrized off-diagonal
accumulation at the vertex pair opposite one of its corners, the weight
(sum of squares of the two adjacent edges minus the square of the opposite
edge) divided by (4 × area); and the final matrix is the diagonal of the
accumulated column sums minus that symmetrized accumulation. -/
theorem C6_cotangent_formula :
    (∀ (V F : ℕ) (verts : Fin V → Vec3) (faces : Fin F → Fin 3 → Fin V) (k : Fin F),
        faceArea verts faces k =
          heronAreaSpec (sideA verts faces k) (sideB verts faces k) (sideC verts faces k)) ∧
      (∀ (V F : ℕ) (verts : Fin V → Vec3) (faces : Fin F → Fin 3 → Fin V) (i j : Fin V),
        i ≠ j → cotSym verts faces i j = cotOffSpec verts faces i j) ∧
      (∀ (V F : ℕ) (verts : Fin V → Vec3) (faces : Fin F → Fin 3 → Fin V),
        laplacian_cot verts faces =
          Matrix.diagonal (fun i => ∑ m, cotSym verts faces m i) - cotSym verts faces) :=
  ⟨fun _ _ verts faces k => faceArea_eq_heronSpec verts faces k,
    fun _ _ verts faces _ _ h => cotSym_eq_cotOffSpec verts faces h,
    fun _ _ _ _ => rfl⟩

/-- Witness for C6: the off-diagonal refinement instantiated at the concrete
right triangle for the distinct pair `(0, 1)`. -/
theorem C6_cotangent_formula_witness :
    cotSym ceVerts triFaces 0 1 = cotOffSpec ceVerts triFaces 0 1 :=
  C6_cotangent_formula.2.1 3 1 ceVerts triFaces 0 1 (by decide)

theorem norm3_nonneg (x : Vec3) : 0 ≤ norm3 x := Real.sqrt_nonneg _

theorem norm3_eq_zero_iff (x : Vec3) : norm3 x = 0 ↔ x = 0 := by
  unfold norm3
  constructor
  · intro hs
    have hsum : x 0 ^ 2 + x 1 ^ 2 + x 2 ^ 2 = 0 := by
      have hnn : 0 ≤ x 0 ^ 2 + x 1 ^ 2 + x 2 ^ 2 := by positivity
      exact (Real.sqrt_eq_zero hnn).mp hs
    funext c
    rcases fin3_cases c with rfl | rfl | rfl <;>
      [skip; skip; skip] <;>
      · show x _ = 0
        nlinarith [sq_nonneg (x 0), sq_nonneg (x 1), sq_nonneg (x 2)]
  · rintro rfl
    simp [Real.sqrt_eq_zero']

theorem norm3_normalize3 {x : Vec3} (h : x ≠ 0) : norm3 (normalize3 x) = 1 := by
  have hne : norm3 x ≠ 0 := fun hc => h ((norm3_eq_zero_iff x).mp hc)
  have hs : (0 : ℝ) ≤ x 0 ^ 2 + x 1 ^ 2 + x 2 ^ 2 := by positivity
  have hsq : norm3 x ^ 2 = x 0 ^ 2 + x 1 ^ 2 + x 2 ^ 2 := Real.sq_sqrt hs
  have key : normalize3 x 0 ^ 2 + normalize3 x 1 ^ 2 + normalize3 x 2 ^ 2 = 1 := by
    unfold normalize3
    rw [div_pow, div_pow, div_pow, div_add_div_same, div_add_div_same, hsq]
    exact div_self fun hc => hne (by rw [show norm3 x = Real.sqrt (x 0 ^ 2 + x 1 ^ 2 + x 2 ^ 2) from rfl, hc, Real.sqrt_zero])
  unfold norm3
  rw [key, Real.sqrt_one]

/-- Claim C9, amended: `compute_vertex_normals` returns per vertex the
normalization of the scatter-added sum of `face_normal × corner angle` over
the incident corners, and the returned normal has unit length whenever that
accumulated sum is nonzero. -/
theorem C9_vertex_normals : ∀ (V F : ℕ) (verts : Fin V → Vec3)
    (faces : Fin F → Fin 3 → Fin V) (p : Fin V),
    compute_vertex_normals verts faces (compute_face_normals verts faces) p =
        normalize3 (vertexAccum verts faces (compute_face_normals verts faces) p) ∧
      (vertexAccum verts faces (compute_face_normals verts faces) p ≠ 0 →
        norm3 (compute_vertex_normals verts faces (compute_face_normals verts faces) p) = 1) :=
  fun _ _ verts faces p => ⟨rfl, fun h => norm3_normalize3 h⟩

theorem ce_sub10 : ceVerts 1 - ceVerts 0 = ![1, 0, 0] := by
  funext c
  rcases fin3_cases c with rfl | rfl | rfl <;> simp [ceVerts]

theorem ce_sub20 : ceVerts 2 - ceVerts 0 = ![0, 1, 0] := by
  funext c
  rcases fin3_cases c with rfl | rfl | rfl <;> simp [ceVerts]

theorem cross3_e1_e2 : cross3 ![1, 0, 0] ![0, 1, 0] = ![0, 0, 1] := by
  funext c
  rcases fin3_cases c with rfl | rfl | rfl <;> simp [cross3]

theorem cross3_e2_e1 : cross3 ![0, 1, 0] ![1, 0, 0] = ![0, 0, -1] := by
  funext c
  rcases fin3_cases c with rfl | rfl | rfl <;> simp [cross3]

theorem norm3_e1 : norm3 ![1, 0, 0] = 1 := by
  unfold norm3
  norm_num

theorem norm3_e2 : norm3 ![0, 1, 0] = 1 := by
  unfold norm3
  norm_num

theorem norm3_e3 : norm3 ![0, 0, 1] = 1 := by
  unfold norm3
  norm_num

theorem norm3_e3neg : norm3 ![0, 0, (-1 : ℝ)] = 1 := by
  unfold norm3
  norm_num

theorem normalize3_e1 : normalize3 ![1, 0, 0] = ![1, 0, 0] := by
  funext c
  unfold normalize3
  rw [norm3_e1]
  rcases fin3_cases c with rfl | rfl | rfl <;> simp

theorem normalize3_e2 : normalize3 ![0, 1, 0] = ![0, 1, 0] := by
  funext c
  unfold normalize3
  rw [norm3_e2]
  rcases fin3_cases c with rfl | rfl | rfl <;> simp

theorem normalize3_e3 : normalize3 ![0, 0, 1] = ![0, 0, 1] := by
  funext c
  unfold normalize3
  rw [norm3_e3]
  rcases fin3_cases c with rfl | rfl | rfl <;> simp

theorem normalize3_e3neg : normalize3 ![0, 0, (-1 : ℝ)] = ![0, 0, (-1 : ℝ)] := by
  funext c
  unfold normalize3
  rw [norm3_e3neg]
  rcases fin3_cases c with rfl | rfl | rfl <;> simp

theorem dot3_e1_e2 : dot3 ![1, 0, 0] ![0, 1, 0] = 0 := by
  unfold dot3
  norm_num

theorem dot3_e2_e1 : dot3 ![0, 1, 0] ![1, 0, 0] = 0 := by
  unfold dot3
  norm_num

theorem safe_acos_zero : safe_acos 0 = Real.pi / 2 := by
  unfold safe_acos
  norm_num [Real.arccos_zero]

theorem ce_faceCross0 : faceCross ceVerts ceFaces 0 = ![0, 0, 1] := by
  unfold faceCross faceVert
  rw [show ceFaces 0 0 = 0 from rfl, show ceFaces 0 1 = 1 from rfl,
    show ceFaces 0 2 = 2 from rfl, ce_sub10, ce_sub20, cross3_e1_e2]

theorem ce_faceCross1 : faceCross ceVerts ceFaces 1 = ![0, 0, -1] := by
  unfold faceCross faceVert
  rw [show ceFaces 1 0 = 0 from rfl, show ceFaces 1 1 = 2 from rfl,
    show ceFaces 1 2 = 1 from rfl, ce_sub10, ce_sub20, cross3_e2_e1]

theorem ce_fn0 : compute_face_normals ceVerts ceFaces 0 = ![0, 0, 1] := by
  unfold compute_face_normals
  rw [ce_faceCross0, normalize3_e3]

theorem ce_fn1 : compute_face_normals ceVerts ceFaces 1 = ![0, 0, -1] := by
  unfold compute_face_normals
  rw [ce_faceCross1, normalize3_e3neg]

theorem ce_angle00 : cornerAngle ceVerts ceFaces 0 0 = Real.pi / 2 := by
  unfold cornerAngle faceVert
  rw [fin3_add01, fin3_add02, show ceFaces 0 0 = 0 from rfl, show ceFaces 0 1 = 1 from rfl,
    show ceFaces 0 2 = 2 from rfl, ce_sub10, ce_sub20, normalize3_e1, normalize3_e2,
    dot3_e1_e2, safe_acos_zero]

theorem ce_angle10 : cornerAngle ceVerts ceFaces 1 0 = Real.pi / 2 := by
  unfold cornerAngle faceVert
  rw [fin3_add01, fin3_add02, show ceFaces 1 0 = 0 from rfl, show ceFaces 1 1 = 2 from rfl,
    show ceFaces 1 2 = 1 from rfl, ce_sub10, ce_sub20, normalize3_e1, normalize3_e2,
    dot3_e2_e1, safe_acos_zero]

theorem ce_accum0 : vertexAccum ceVerts ceFaces (compute_face_normals ceVerts ceFaces) 0 = 0 := by
  unfold vertexAccum
  rw [Fin.sum_univ_two]
  rw [Fin.sum_univ_three, Fin.sum_univ_three]
  rw [if_pos (show ceFaces 0 0 = 0 from rfl), if_neg (show ¬ceFaces 0 1 = 0 by decide),
    if_neg (show ¬ceFaces 0 2 = 0 by decide), if_pos (show ceFaces 1 0 = 0 from rfl),
    if_neg (show ¬ceFaces 1 1 = 0 by decide), if_neg (show ¬ceFaces 1 2 = 0 by decide)]
  rw [ce_angle00, ce_angle10, ce_fn0, ce_fn1]
  funext c
  rcases fin3_cases c with rfl | rfl | rfl <;> simp

theorem normalize3_zero : normalize3 (0 : Vec3) = 0 := by
  funext c
  unfold normalize3
  simp

theorem norm3_zero : norm3 (0 : Vec3) = 0 := by
  unfold norm3
  simp

/-- Counterexample to C9 as stated: a mesh of two opposite-winding copies of a
right triangle has no zero-area face and no isolated vertex, yet the angle
weighted accumulator at vertex 0 cancels to zero and the returned "normal" has
norm 0, not 1. -/
theorem C9_vertex_normals_counterexample :
    faceCross ceVerts ceFaces 0 ≠ 0 ∧ faceCross ceVerts ceFaces 1 ≠ 0 ∧
      ceFaces 0 0 = 0 ∧ ceFaces 0 1 = 1 ∧ ceFaces 0 2 = 2 ∧
      norm3 (compute_vertex_normals ceVerts ceFaces
        (compute_face_normals ceVerts ceFaces) 0) ≠ 1 := by
  refine ⟨?_, ?_, rfl, rfl, rfl, ?_⟩
  · rw [ce_faceCross0]
    intro hc
    have h2 := congrFun hc 2
    norm_num at h2
  · rw [ce_faceCross1]
    intro hc
    have h2 := congrFun hc 2
    norm_num at h2
  · show norm3 (normalize3 (vertexAccum ceVerts ceFaces
      (compute_face_normals ceVerts ceFaces) 0)) ≠ 1
    rw [ce_accum0, normalize3_zero, norm3_zero]
    norm_num

theorem tri_accum0 :
    vertexAccum ceVerts triFaces (compute_face_normals ceVerts triFaces) 0 =
      (Real.pi / 2) • ![0, 0, 1] := by
  unfold vertexAccum
  rw [Fin.sum_univ_one, Fin.sum_univ_three]
  rw [if_pos (show triFaces 0 0 = 0 from rfl), if_neg (show ¬triFaces 0 1 = 0 by decide),
    if_neg (show ¬triFaces 0 2 = 0 by decide)]
  have hfn : compute_face_normals ceVerts triFaces 0 = ![0, 0, 1] := by
    unfold compute_face_normals faceCross faceVert
    rw [show triFaces 0 0 = 0 from rfl, show triFaces 0 1 = 1 from rfl,
      show triFaces 0 2 = 2 from rfl, ce_sub10, ce_sub20, cross3_e1_e2, normalize3_e3]
  have hangle : cornerAngle ceVerts triFaces 0 0 = Real.pi / 2 := by
    unfold cornerAngle faceVert
    rw [fin3_add01, fin3_add02, show triFaces 0 0 = 0 from rfl,
      show triFaces 0 1 = 1 from rfl, show triFaces 0 2 = 2 from rfl, ce_sub10, ce_sub20,
      normalize3_e1, normalize3_e2, dot3_e1_e2, safe_acos_zero]
  rw [hfn, hangle, add_zero, add_zero]

theorem tri_accum0_ne :
    vertexAccum ceVerts triFaces (compute_face_normals ceVerts triFaces) 0 ≠ 0 := by
  rw [tri_accum0]
  intro hc
  have h2 := congrFun hc 2
  simp at h2
  exact Real.pi_ne_zero h2

/-- Witness for C9: at the single right triangle, the accumulator at vertex 0
is nonzero and the returned vertex normal has unit norm. -/
theorem C9_vertex_normals_witness :
    vertexAccum ceVerts triFaces (compute_face_normals ceVerts triFaces) 0 ≠ 0 ∧
      norm3 (compute_vertex_normals ceVerts triFaces
        (compute_face_normals ceVerts triFaces) 0) = 1 :=
  ⟨tri_accum0_ne, (C9_vertex_normals 3 1 ceVerts triFaces 0).2 tri_accum0_ne⟩

theorem vec3_ext3 {a b : Vec3} (h0 : a 0 = b 0) (h1 : a 1 = b 1) (h2 : a 2 = b 2) :
    a = b := by
  funext c
  rcases fin3_cases c with rfl | rfl | rfl <;> assumption

theorem vec3Lt_trans {a b c : Vec3} (h1 : vec3Lt a b) (h2 : vec3Lt b c) : vec3Lt a c := by
  unfold vec3Lt at h1 h2 ⊢
  rcases h1 with h1 | ⟨e1, h1⟩
  · rcases h2 with h2 | ⟨e2, h2⟩
    · exact Or.inl (h1.trans h2)
    · exact Or.inl (by rw [← e2]; exact h1)
  · rcases h2 with h2 | ⟨e2, h2⟩
    · exact Or.inl (by rw [e1]; exact h2)
    · refine Or.inr ⟨e1.trans e2, ?_⟩
      rcases h1 with h1 | ⟨f1, h1⟩
      · rcases h2 with h2 | ⟨f2, h2⟩
        · exact Or.inl (h1.trans h2)
        · exact Or.inl (by rw [← f2]; exact h1)
      · rcases h2 with h2 | ⟨f2, h2⟩
        · exact Or.inl (by rw [f1]; exact h2)
        · exact Or.inr ⟨f1.trans f2, h1.trans h2⟩

theorem vec3Lt_asymm {a b : Vec3} (h1 : vec3Lt a b) (h2 : vec3Lt b a) : False := by
  unfold vec3Lt at h1 h2
  rcases h1 with h1 | ⟨e1, h1 | ⟨f1, g1⟩⟩ <;>
    rcases h2 with h2 | ⟨e2, h2 | ⟨f2, g2⟩⟩ <;> linarith

theorem vec3Le_antisymm {a b : Vec3} (h1 : vec3Le a b) (h2 : vec3Le b a) : a = b := by
  rcases h1 with h1 | rfl
  · rcases h2 with h2 | rfl
    · exact (vec3Lt_asymm h1 h2).elim
    · rfl
  · rfl

theorem vec3Le_total (a b : Vec3) : vec3Le a b ∨ vec3Le b a := by
  unfold vec3Le vec3Lt
  rcases lt_trichotomy (a 0) (b 0) with h | h | h
  · exact Or.inl (Or.inl (Or.inl h))
  · rcases lt_trichotomy (a 1) (b 1) with h1 | h1 | h1
    · exact Or.inl (Or.inl (Or.inr ⟨h, Or.inl h1⟩))
    · rcases lt_trichotomy (a 2) (b 2) with h2 | h2 | h2
      · exact Or.inl (Or.inl (Or.inr ⟨h, Or.inr ⟨h1, h2⟩⟩))
      · exact Or.inl (Or.inr (vec3_ext3 h h1 h2))
      · exact Or.inr (Or.inl (Or.inr ⟨h.symm, Or.inr ⟨h1.symm, h2⟩⟩))
    · exact Or.inr (Or.inl (Or.inr ⟨h.symm, Or.inl h1⟩))
  · exact Or.inr (Or.inl (Or.inl h))

theorem vec3Le_trans {a b c : Vec3} (h1 : vec3Le a b) (h2 : vec3Le b c) : vec3Le a c := by
  rcases h1 with h1 | rfl
  · rcases h2 with h2 | rfl
    · exact Or.inl (vec3Lt_trans h1 h2)
    · exact Or.inl h1
  · exact h2

theorem mem_insertVec (x a : Vec3) (l : List Vec3) :
    a ∈ insertVec x l ↔ a = x ∨ a ∈ l := by
  induction l with
  | nil => simp [insertVec]
  | cons y ys ih =>
    unfold insertVec
    by_cases h : vec3Le x y
    · rw [if_pos h]
      simp only [List.mem_cons]
    · rw [if_neg h]
      simp only [List.mem_cons, ih]
      tauto

theorem insertVec_perm (x : Vec3) (l : List Vec3) : List.Perm (insertVec x l) (x :: l) := by
  induction l with
  | nil => simp [insertVec]
  | cons y ys ih =>
    unfold insertVec
    by_cases h : vec3Le x y
    · rw [if_pos h]
    · rw [if_neg h]
      exact (ih.cons y).trans (List.Perm.swap x y ys)

theorem sortVecs_perm (l : List Vec3) : List.Perm (sortVecs l) l := by
  induction l with
  | nil => simp [sortVecs]
  | cons x xs ih =>
    unfold sortVecs
    exact (insertVec_perm x (sortVecs xs)).trans (ih.cons x)

theorem insertVec_sorted {x : Vec3} {l : List Vec3} (h : l.Sorted vec3Le) :
    (insertVec x l).Sorted vec3Le := by
  induction l with
  | nil => simp [insertVec]
  | cons y ys ih =>
    rw [List.sorted_cons] at h
    unfold insertVec
    by_cases hx : vec3Le x y
    · rw [if_pos hx, List.sorted_cons]
      refine ⟨?_, ?_⟩
      · intro b hb
        rcases List.mem_cons.mp hb with rfl | hb
        · exact hx
        · exact vec3Le_trans hx (h.1 b hb)
      · rw [List.sorted_cons]
        exact h
    · rw [if_neg hx, List.sorted_cons]
      refine ⟨?_, ih h.2⟩
      intro b hb
      rcases (mem_insertVec x b ys).mp hb with hbx | hb
      · rw [hbx]
        rcases vec3Le_total x y with hxy | hyx
        · exact absurd hxy hx
        · exact hyx
      · exact h.1 b hb

theorem sortVecs_sorted (l : List Vec3) : (sortVecs l).Sorted vec3Le := by
  induction l with
  | nil => simp [sortVecs]
  | cons x xs ih =>
    unfold sortVecs
    exact insertVec_sorted ih

theorem mem_uniqueVerts {v : List Vec3} {a : Vec3} : a ∈ uniqueVerts v ↔ a ∈ v := by
  unfold uniqueVerts
  rw [(sortVecs_perm v.dedup).mem_iff, List.mem_dedup]

theorem uniqueVerts_getD_indexOf {v : List Vec3} {a : Vec3} (ha : a ∈ v) :
    (uniqueVerts v).getD ((uniqueVerts v).indexOf a) 0 = a := by
  have hm : a ∈ uniqueVerts v := mem_uniqueVerts.mpr ha
  have hlt : (uniqueVerts v).indexOf a < (uniqueVerts v).length :=
    List.indexOf_lt_length.mpr hm
  rw [List.getD_eq_getElem _ _ hlt]
  exact List.getElem_indexOf hlt

/-- Claim C7: indexing the welded vertex list through the inverse map
reproduces the original vertex list exactly, and the re-indexed faces refer,
through the welded indexing, to the same positions the original faces
referred to. -/
theorem C7_weld_round_trip : ∀ (v : List Vec3) (f : List (Fin 3 → ℕ)),
    (remove_duplicates v f).2.2.map (fun m => (remove_duplicates v f).1.getD m 0) = v ∧
      (∀ k, k < f.length → ∀ j : Fin 3, (f.getD k fdef) j < v.length →
        (remove_duplicates v f).1.getD (((remove_duplicates v f).2.1.getD k fdef) j) 0 =
          v.getD ((f.getD k fdef) j) 0) := by
  intro v f
  constructor
  · show (inverseMap v).map (fun m => (uniqueVerts v).getD m 0) = v
    unfold inverseMap
    rw [List.map_map]
    have hpt : ∀ a ∈ v,
        ((fun m => (uniqueVerts v).getD m 0) ∘ fun x => (uniqueVerts v).indexOf x) a =
          id a :=
      fun a ha => uniqueVerts_getD_indexOf ha
    rw [List.map_congr_left hpt, List.map_id]
  · intro k hk j hj
    show (uniqueVerts v).getD
        (((f.map fun face j => (inverseMap v).getD (face j) 0).getD k fdef) j) 0 = _
    have hkm : k < (f.map fun face j => (inverseMap v).getD (face j) 0).length := by
      simpa using hk
    rw [List.getD_eq_getElem _ _ hkm, List.getElem_map, List.getD_eq_getElem _ _ hk]
    have hjv : (f[k] j) < (inverseMap v).length := by
      unfold inverseMap
      rw [List.length_map]
      rw [List.getD_eq_getElem _ _ hk] at hj
      exact hj
    rw [List.getD_eq_getElem _ _ hjv]
    show (uniqueVerts v).getD ((v.map fun x => (uniqueVerts v).indexOf x)[f[k] j]) 0 = _
    rw [List.getElem_map]
    rw [List.getD_eq_getElem _ _ hk] at hj
    rw [List.getD_eq_getElem _ _ hj]
    exact uniqueVerts_getD_indexOf (List.getElem_mem hj)

/-- Witness for C7: the face part of the round trip at a one-vertex mesh with
one (degenerate) face. -/
theorem C7_weld_round_trip_witness :
    (remove_duplicates [w0] [fdef]).2.2.map
        (fun m => (remove_duplicates [w0] [fdef]).1.getD m 0) = [w0] ∧
      (remove_duplicates [w0] [fdef]).1.getD
          ((((remove_duplicates [w0] [fdef]).2.1.getD 0 fdef)) 0) 0 =
        [w0].getD ((([fdef] : List (Fin 3 → ℕ)).getD 0 fdef) 0) 0 :=
  ⟨(C7_weld_round_trip [w0] [fdef]).1,
    (C7_weld_round_trip [w0] [fdef]).2 0 (by norm_num) 0 (by decide)⟩

theorem uniqueVerts_of_sorted_nodup {v : List Vec3} (hnd : v.Nodup)
    (hs : v.Sorted vec3Le) : uniqueVerts v = v := by
  unfold uniqueVerts
  rw [List.dedup_eq_self.mpr hnd]
  haveI : IsAntisymm Vec3 vec3Le := ⟨fun a b h1 h2 => vec3Le_antisymm h1 h2⟩
  exact List.eq_of_perm_of_sorted (sortVecs_perm v) (sortVecs_sorted v) hs

theorem inverseMap_of_sorted_nodup {v : List Vec3} (hnd : v.Nodup)
    (hs : v.Sorted vec3Le) : inverseMap v = List.range v.length := by
  unfold inverseMap
  rw [uniqueVerts_of_sorted_nodup hnd hs]
  apply List.ext_getElem
  · simp
  · intro i h1 h2
    rw [List.getElem_map, List.getElem_range]
    exact List.indexOf_getElem hnd i (by simpa using h1)

/-- Claim C8, amended: `torch.unique(dim=0)` returns the unique rows sorted, so
an already-unique mesh is returned unchanged with the identity inverse map
exactly when its vertex rows are also lexicographically sorted; the faces are
unchanged for in-range indices. -/
theorem C8_weld_identity : ∀ (v : List Vec3) (f : List (Fin 3 → ℕ)),
    v.Nodup → v.Sorted vec3Le → (∀ face ∈ f, ∀ j : Fin 3, face j < v.length) →
    (remove_duplicates v f).1 = v ∧ (remove_duplicates v f).2.1 = f ∧
      (remove_duplicates v f).2.2 = List.range v.length := by
  intro v f hnd hs hfr
  have hi := inverseMap_of_sorted_nodup hnd hs
  refine ⟨uniqueVerts_of_sorted_nodup hnd hs, ?_, hi⟩
  show f.map (fun face j => (inverseMap v).getD (face j) 0) = f
  have hpt : ∀ face ∈ f,
      (fun (face : Fin 3 → ℕ) => fun j => (inverseMap v).getD (face j) 0) face =
        id face := by
    intro face hf
    funext j
    rw [hi]
    show (List.range v.length).getD (face j) 0 = face j
    rw [List.getD_eq_getElem _ _ (by simpa using hfr face hf j), List.getElem_range]
  rw [List.map_congr_left hpt, List.map_id]

theorem w1_ne_w0 : w1 ≠ w0 := by
  intro h
  have h0 := congrFun h 0
  norm_num [w1, w0] at h0

theorem not_vec3Le_w1_w0 : ¬vec3Le w1 w0 := by
  intro h
  unfold vec3Le vec3Lt at h
  rcases h with (h | ⟨e, -⟩) | h
  · norm_num [w1, w0] at h
  · norm_num [w1, w0] at e
  · exact w1_ne_w0 h

theorem sortVecs_w1_w0 : sortVecs [w1, w0] = [w0, w1] := by
  have h0 : sortVecs [w1, w0] = insertVec w1 [w0] := rfl
  rw [h0]
  simp only [insertVec]
  rw [if_neg not_vec3Le_w1_w0]

theorem dedup_w1_w0 : ([w1, w0] : List Vec3).dedup = [w1, w0] :=
  List.dedup_eq_self.mpr (by simp [w1_ne_w0])

theorem uniqueVerts_w1_w0 : uniqueVerts [w1, w0] = [w0, w1] := by
  unfold uniqueVerts
  rw [dedup_w1_w0, sortVecs_w1_w0]

theorem inverseMap_w1_w0 : inverseMap [w1, w0] = [1, 0] := by
  unfold inverseMap
  rw [uniqueVerts_w1_w0]
  simp only [List.map_cons, List.map_nil]
  rw [List.indexOf_cons_ne _ (Ne.symm w1_ne_w0), List.indexOf_cons_self,
    List.indexOf_cons_self]

/-- Counterexample to C8 as stated: the two rows `(1,0,0), (0,0,0)` are
pairwise distinct, yet `remove_duplicates` returns them reordered (sorted) and
the inverse map is `[1, 0]`, not the identity. -/
theorem C8_weld_identity_counterexample :
    w1 ≠ w0 ∧ (remove_duplicates [w1, w0] []).1 ≠ [w1, w0] ∧
      (remove_duplicates [w1, w0] []).2.2 ≠ [0, 1] := by
  refine ⟨w1_ne_w0, ?_, ?_⟩
  · show uniqueVerts [w1, w0] ≠ _
    rw [uniqueVerts_w1_w0]
    intro hc
    injection hc with hh _
    exact w1_ne_w0 hh.symm
  · show inverseMap [w1, w0] ≠ _
    rw [inverseMap_w1_w0]
    decide

theorem vec3Le_w0_w1 : vec3Le w0 w1 :=
  Or.inl (Or.inl (by norm_num [w0, w1]))

/-- Witness for C8: a sorted, duplicate-free two-vertex mesh with one in-range
face is returned unchanged with the identity inverse map. -/
theorem C8_weld_identity_witness :
    (remove_duplicates [w0, w1] [fdef]).1 = [w0, w1] ∧
      (remove_duplicates [w0, w1] [fdef]).2.1 = [fdef] ∧
      (remove_duplicates [w0, w1] [fdef]).2.2 =
        List.range ([w0, w1] : List Vec3).length :=
  C8_weld_identity [w0, w1] [fdef]
    (by simp [Ne.symm w1_ne_w0])
    (by
      rw [List.sorted_cons]
      refine ⟨?_, List.sorted_singleton _⟩
      intro b hb
      rw [List.mem_singleton.mp hb]
      exact vec3Le_w0_w1)
    (by
      intro face hf j
      rw [List.mem_singleton.mp hf]
      show fdef j < 2
      norm_num [fdef])

end LargeSteps
